import Mathlib

/-!
# Schoolbook multiplication on digit vectors (`src/main.cpp`)

A shallow embedding of `multiply`, `get_digit`, `num_of_digits` and of the
decomposition loops of `main`, followed by the properties of the program.

Conventions of the embedding.

* `number` is the arbitrary-precision build (`USE_GMP`, `mpz_class`) restricted to
  the non-negative integers the program is specified for: `Nat`.
* `vector<number>` is `List Nat`, index 0 first; `push_back x` is `· ++ [x]`,
  `pop_back` is `List.dropLast`.
* A vector read `v[i]` outside `0 .. v.size() - 1`, a division by zero and a loop
  that exhausts its iteration budget are outcomes of their own (`Fault`), so that
  the absence of each can be stated.
* `digit_counter` and `size_type` are unsigned 64-bit. Vector sizes and the counters
  that run up to them stay far below `2 ^ 64`, so they are plain `Nat`; the one place
  where an unsigned counter leaves its range, the decrement `i--` of the cleanup
  loop at `i = 0`, wraps to `SIZE_MAX` explicitly (`size_dec`).
-/

namespace MultiplicationAlgorithm

/-! ## Outcomes -/

/-- The ways in which a run can fail to produce a value. -/
inductive Fault where
  | out_of_bounds
  | division_by_zero
  | out_of_fuel
deriving DecidableEq, Repr

deriving instance DecidableEq for Except

/-- The largest value of the unsigned 64-bit `size_type`. -/
def SIZE_MAX : Nat := 2 ^ 64 - 1

/-- The unsigned decrement `i--` on `size_type`: `0` wraps around to `SIZE_MAX`. -/
def size_dec (i : Nat) : Nat :=
  if i = 0 then SIZE_MAX else i - 1

/-- The vector read `v[i]`; reading outside the vector is a fault. -/
def read (v : List Nat) (i : Nat) : Except Fault Nat :=
  match v[i]? with
  | some x => .ok x
  | none => .error .out_of_bounds

/-! ## `multiply` -/

/-- Source: `max_num_of_digits_after_multiplication`, `a.size() + b.size()`. -/
def max_num_of_digits_after_multiplication (a b : List Nat) : Nat :=
  a.length + b.length

/-- The inner loop `for(i = 0; i <= d; i++)` of `multiply`, as a loop with `n`
iterations left, the counter at `i` and the accumulator at `tmp`. It is entered
with `n = d + 1`, `i = 0`, `tmp = 0`. -/
def inner_loop (a b : List Nat) (d : Nat) : Nat → Nat → Nat → Except Fault Nat
  | 0, _, tmp => .ok tmp
  | n + 1, i, tmp =>
    if !(decide (i ≥ a.length) || decide (d - i ≥ b.length)) then do
      let x ← read a i
      let y ← read b (d - i)
      inner_loop a b d n (i + 1) (tmp + x * y)
    else
      inner_loop a b d n (i + 1) tmp

/-- The outer loop `for(d = 0; d <= max_num_of_digits_after_multiplication(a, b); d++)`
of `multiply`, with `n` iterations left. The state is the position `d`, the `carry`
and the `result` vector; the final state is returned whole. -/
def outer_loop (a b : List Nat) (base : Nat) :
    Nat → Nat → Nat → List Nat → Except Fault (Nat × List Nat)
  | 0, _, carry, result => .ok (carry, result)
  | n + 1, d, carry, result => do
    let tmp ← inner_loop a b d (d + 1) 0 0
    let tmp := tmp + carry
    if base = 0 then
      .error .division_by_zero
    else
      outer_loop a b base n (d + 1) (tmp / base) (result ++ [tmp % base])

/-- The cleanup loop `for(size_type i = result.size() - 1; i >= 0; i--)` of
`multiply`. The condition `i >= 0` on an unsigned `i` is always true, so the loop is
left only through `break` (or a fault); `fuel` bounds the iterations. -/
def cleanup_loop : Nat → List Nat → Nat → Except Fault (List Nat)
  | 0, _, _ => .error .out_of_fuel
  | fuel + 1, result, i => do
    let x ← read result i
    if x = 0 then
      cleanup_loop fuel result.dropLast (size_dec i)
    else
      .ok result

/-- The cleanup phase of `multiply`: the loop above from `i = result.size() - 1`.
Every iteration that does not leave the loop removes an element, so
`result.size() + 1` iterations are enough. -/
def cleanup (result : List Nat) : Except Fault (List Nat) :=
  cleanup_loop (result.length + 1) result (size_dec result.length)

/-- The vector built by the multiplication phase of `multiply`, with the last carry. -/
def raw_product (a b : List Nat) (base : Nat) : Except Fault (Nat × List Nat) :=
  outer_loop a b base (max_num_of_digits_after_multiplication a b + 1) 0 0 []

/-- Source: `multiply`. -/
def multiply (a b : List Nat) (base : Nat) : Except Fault (List Nat) := do
  let (_, result) ← raw_product a b base
  cleanup result

/-! ## `get_digit`, `num_of_digits` and the decomposition loops of `main` -/

/-- Source: `my_pow` (`mpz_pow_ui`), `x ^ y`. -/
def my_pow (x y : Nat) : Nat := x ^ y

/-- Source: `get_digit`. With `base = 0` the division (for `digit_number > 0`) or the
remainder divides by zero. -/
def get_digit (x digit_number base : Nat) : Except Fault Nat :=
  if base = 2 then
    .ok ((x >>> digit_number) &&& 1)
  else if base = 0 then
    .error .division_by_zero
  else
    .ok ((x / my_pow base digit_number) % base)

/-- The loop `while(x) { x /= base; digits++; }` of `num_of_digits`. -/
def num_of_digits_loop (base : Nat) : Nat → Nat → Nat → Except Fault Nat
  | 0, _, _ => .error .out_of_fuel
  | fuel + 1, x, digits =>
    if x ≠ 0 then
      if base = 0 then
        .error .division_by_zero
      else
        num_of_digits_loop base fuel (x / base) (digits + 1)
    else
      .ok digits

/-- Source: `num_of_digits`, with an iteration budget of `x + 1`. -/
def num_of_digits (x base : Nat) : Except Fault Nat :=
  num_of_digits_loop base (x + 1) x 0

/-- The body `v.push_back(get_digit(x, i, base))` of a decomposition loop of `main`,
repeated `n` times from the counter `i`. -/
def decompose_loop (x base : Nat) : Nat → Nat → List Nat → Except Fault (List Nat)
  | 0, _, v => .ok v
  | n + 1, i, v => do
    let g ← get_digit x i base
    decompose_loop x base n (i + 1) (v ++ [g])

/-- The loop `for(i = 0; i < num_of_digits(x, base); i++) v.push_back(get_digit(x, i, base))`
of `main`, on an empty `v`. Neither `x` nor `base` changes in the loop, so the bound
`num_of_digits(x, base)` of its condition is computed once. -/
def decompose (x base : Nat) : Except Fault (List Nat) := do
  let n ← num_of_digits x base
  decompose_loop x base n 0 []

/-! ## Specification vocabulary -/

/-- The number a digit sequence stands for: the sum of `digit[i] * base ^ i`. -/
def value (ds : List Nat) (base : Nat) : Nat :=
  ((List.range ds.length).map (fun i => ds.getD i 0 * base ^ i)).sum

/-- The formula of the specification for `digit_at`: `(value / base^position) mod base`. -/
def digit_at_spec (x position base : Nat) : Nat :=
  (x / base ^ position) % base

/-! ## Closed forms of the loops, used in the proofs -/

/-- The convolution term of position `d`, with the digits beyond a vector's end read
as `0`. -/
def conv (a b : List Nat) (d : Nat) : Nat :=
  ∑ i ∈ Finset.range (d + 1), a.getD i 0 * b.getD (d - i) 0

/-- The carry that enters position `d` of the outer loop. -/
def carry_in (a b : List Nat) (base : Nat) : Nat → Nat
  | 0 => 0
  | d + 1 => (conv a b d + carry_in a b base d) / base

/-- The value of `tmp` at position `d` once the carry is added. -/
def tmp_at (a b : List Nat) (base : Nat) (d : Nat) : Nat :=
  conv a b d + carry_in a b base d

/-- The digit pushed at position `d`. -/
def raw_digit (a b : List Nat) (base : Nat) (d : Nat) : Nat :=
  tmp_at a b base d % base

/-- The vector `result` as it stands before the cleanup. -/
def raw_digits (a b : List Nat) (base : Nat) : List Nat :=
  (List.range (a.length + b.length + 1)).map (raw_digit a b base)

/-- A digit sequence without its most-significant zeros. -/
def strip (ds : List Nat) : List Nat :=
  ds.rdropWhile (fun x => x == 0)

/-- Every digit of the sequence is below the base. -/
def digits_lt (ds : List Nat) (base : Nat) : Prop :=
  ∀ x ∈ ds, x < base

instance (ds : List Nat) (base : Nat) : Decidable (digits_lt ds base) := by
  unfold digits_lt; infer_instance

/-! ## The driver, the instrumented cleanup loop and the specified decomposition -/

/-- The computation of `main` between the parsing of the arguments and the printing:
decompose `a`, decompose `b`, multiply. -/
def driver (base a b : Nat) : Except Fault (List Nat) := do
  let av ← decompose a base
  let bv ← decompose b base
  multiply av bv base

/-- The cleanup loop of `multiply` once more, returning the value of its index `i` at
the read that ends the loop: the read of a non-zero digit (`break`) or the read outside
the vector. -/
def cleanup_loop_index : Nat → List Nat → Nat → Except Fault Nat
  | 0, _, _ => .error .out_of_fuel
  | fuel + 1, result, i =>
    match read result i with
    | .ok x =>
      if x = 0 then
        cleanup_loop_index fuel result.dropLast (size_dec i)
      else
        .ok i
    | .error _ => .ok i

/-- The index at which the cleanup phase of `multiply` ends, from `i = result.size() - 1`. -/
def cleanup_index (result : List Nat) : Except Fault Nat :=
  cleanup_loop_index (result.length + 1) result (size_dec result.length)

/-- The decomposition algorithm in the words of the specification: divide the value by
the base again and again, each remainder being the next digit (least significant
first), until the quotient is zero; the value 0 gives the empty sequence. -/
def decompose_spec_loop (base : Nat) : Nat → Nat → List Nat
  | 0, _ => []
  | fuel + 1, x => if x = 0 then [] else (x % base) :: decompose_spec_loop base fuel (x / base)

/-- The specified decomposition with a budget of `x` divisions. -/
def decompose_spec (x base : Nat) : List Nat :=
  decompose_spec_loop base x x

/-! ## The multiplication phase in the fixed-width build -/

/-- The inner loop of `multiply` where `number` is `unsigned long long` (the build
without `USE_GMP`): the product and the sum are taken modulo `2 ^ 64`. The flag `w`
records whether an exact product or sum has reached `2 ^ 64`, i.e. has wrapped. -/
def inner_loop64 (a b : List Nat) (d : Nat) :
    Nat → Nat → Nat → Bool → Except Fault (Nat × Bool)
  | 0, _, tmp, w => .ok (tmp, w)
  | n + 1, i, tmp, w =>
    if !(decide (i ≥ a.length) || decide (d - i ≥ b.length)) then do
      let x ← read a i
      let y ← read b (d - i)
      let p := (x * y) % 2 ^ 64
      inner_loop64 a b d n (i + 1) ((tmp + p) % 2 ^ 64)
        (w || decide (2 ^ 64 ≤ x * y) || decide (2 ^ 64 ≤ tmp + p))
    else
      inner_loop64 a b d n (i + 1) tmp w

/-- The outer loop of `multiply` where `number` is `unsigned long long`: `tmp += carry`
is taken modulo `2 ^ 64`, and the flag records a wrap of it as well. -/
def outer_loop64 (a b : List Nat) (base : Nat) :
    Nat → Nat → Nat → List Nat → Bool → Except Fault (Nat × List Nat × Bool)
  | 0, _, carry, result, w => .ok (carry, result, w)
  | n + 1, d, carry, result, w => do
    let t ← inner_loop64 a b d (d + 1) 0 0 w
    let tmp := (t.1 + carry) % 2 ^ 64
    if base = 0 then
      .error .division_by_zero
    else
      outer_loop64 a b base n (d + 1) (tmp / base) (result ++ [tmp % base])
        (t.2 || decide (2 ^ 64 ≤ t.1 + carry))

/-- The multiplication phase of `multiply` where `number` is `unsigned long long`: the
last carry, the vector before the cleanup, and whether any operation has wrapped. -/
def raw_product64 (a b : List Nat) (base : Nat) : Except Fault (Nat × List Nat × Bool) :=
  outer_loop64 a b base (max_num_of_digits_after_multiplication a b + 1) 0 0 [] false

/-! ## Reads and the inner loop -/

theorem read_of_lt (v : List Nat) (i : Nat) (h : i < v.length) :
    read v i = .ok (v.getD i 0) := by
  simp [read, List.getD, List.getElem?_eq_getElem h]

theorem read_of_le (v : List Nat) (i : Nat) (h : v.length ≤ i) :
    read v i = .error .out_of_bounds := by
  simp [read, List.getElem?_eq_none h]

theorem inner_loop_eq (a b : List Nat) (d : Nat) : ∀ n i tmp,
    inner_loop a b d n i tmp
      = .ok (tmp + ∑ k ∈ Finset.range n, a.getD (i + k) 0 * b.getD (d - (i + k)) 0) := by
  intro n
  induction n with
  | zero => intro i tmp; simp [inner_loop]
  | succ n ih =>
    intro i tmp
    rw [Finset.sum_range_succ']
    by_cases hg : i < a.length ∧ d - i < b.length
    · have hc : (!(decide (i ≥ a.length) || decide (d - i ≥ b.length))) = true := by
        simp [hg.1, hg.2]
      simp only [inner_loop, hc, if_true, read_of_lt a i hg.1, read_of_lt b (d - i) hg.2]
      show inner_loop a b d n (i + 1) (tmp + a.getD i 0 * b.getD (d - i) 0) = _
      rw [ih]
      congr 1
      have : ∀ k, i + 1 + k = i + (k + 1) := fun k => by omega
      simp only [this, Nat.add_zero]
      ring
    · have hc : (!(decide (i ≥ a.length) || decide (d - i ≥ b.length))) = false := by
        by_cases h1 : i < a.length
        · have h2 : b.length ≤ d - i := by
            by_contra h2
            exact hg ⟨h1, by omega⟩
          simp [h2]
        · simp [Nat.le_of_not_lt h1]
      have hz : a.getD i 0 * b.getD (d - i) 0 = 0 := by
        by_cases h1 : i < a.length
        · have h2 : b.length ≤ d - i := by
            by_contra hcon
            exact hg ⟨h1, by omega⟩
          rw [List.getD_eq_default _ _ h2, Nat.mul_zero]
        · rw [List.getD_eq_default _ _ (Nat.le_of_not_lt h1), Nat.zero_mul]
      simp only [inner_loop, hc, Bool.false_eq_true, if_false]
      rw [ih]
      congr 1
      have : ∀ k, i + 1 + k = i + (k + 1) := fun k => by omega
      simp only [this, Nat.add_zero, hz]

theorem inner_loop_conv (a b : List Nat) (d : Nat) :
    inner_loop a b d (d + 1) 0 0 = .ok (conv a b d) := by
  rw [inner_loop_eq]
  simp [conv]

/-! ## The outer loop -/

theorem outer_loop_eq (a b : List Nat) (base : Nat) (hb : base ≠ 0) : ∀ n d result,
    outer_loop a b base n d (carry_in a b base d) result
      = .ok (carry_in a b base (d + n),
          result ++ (List.range n).map (fun k => raw_digit a b base (d + k))) := by
  intro n
  induction n with
  | zero => intro d result; simp [outer_loop]
  | succ n ih =>
    intro d result
    simp only [outer_loop, inner_loop_conv, hb, if_false]
    show outer_loop a b base n (d + 1) ((conv a b d + carry_in a b base d) / base)
        (result ++ [(conv a b d + carry_in a b base d) % base]) = _
    have hc : (conv a b d + carry_in a b base d) / base = carry_in a b base (d + 1) := rfl
    rw [hc, ih (d + 1), List.range_succ_eq_map]
    have h1 : d + 1 + n = d + (n + 1) := by omega
    have h2 : ∀ k, d + 1 + k = d + (k + 1) := fun k => by omega
    simp only [h1, h2, List.map_cons, List.map_map, List.append_assoc, List.singleton_append,
      Nat.add_zero, raw_digit, tmp_at, Function.comp_def, Nat.succ_eq_add_one]

theorem outer_loop_zero (a b : List Nat) (n d carry : Nat) (result : List Nat) :
    outer_loop a b 0 (n + 1) d carry result = .error .division_by_zero := by
  simp only [outer_loop, inner_loop_conv]
  rfl

theorem raw_product_eq (a b : List Nat) (base : Nat) (hb : base ≠ 0) :
    raw_product a b base
      = .ok (carry_in a b base (a.length + b.length + 1), raw_digits a b base) := by
  have h := outer_loop_eq a b base hb (a.length + b.length + 1) 0 []
  simp only [carry_in, Nat.zero_add, List.nil_append] at h
  simpa [raw_product, max_num_of_digits_after_multiplication, raw_digits] using h

theorem multiply_eq_cleanup (a b : List Nat) (base : Nat) (hb : base ≠ 0) :
    multiply a b base = cleanup (raw_digits a b base) := by
  simp only [multiply, raw_product_eq a b base hb]
  rfl

theorem multiply_base_zero (a b : List Nat) :
    multiply a b 0 = .error .division_by_zero := by
  simp only [multiply, raw_product, outer_loop_zero]
  rfl

/-! ## Values of digit sequences -/

theorem list_sum_range (f : Nat → Nat) (n : Nat) :
    ((List.range n).map f).sum = ∑ i ∈ Finset.range n, f i := by
  induction n with
  | zero => simp
  | succ n ih => simp [List.range_succ, Finset.sum_range_succ, ih]

theorem value_eq_sum (ds : List Nat) (base : Nat) :
    value ds base = ∑ i ∈ Finset.range ds.length, ds.getD i 0 * base ^ i := by
  simp only [value, list_sum_range]

theorem value_nil (base : Nat) : value [] base = 0 := by
  simp [value]

theorem value_cons (x : Nat) (ds : List Nat) (base : Nat) :
    value (x :: ds) base = x + base * value ds base := by
  simp only [value_eq_sum, List.length_cons, Finset.sum_range_succ', Finset.mul_sum]
  simp only [List.getD_cons_succ, List.getD_cons_zero, pow_zero, mul_one, pow_succ]
  rw [Nat.add_comm]
  congr 1
  apply Finset.sum_congr rfl
  intro i _
  ring

theorem value_eq_ofDigits (ds : List Nat) (base : Nat) :
    value ds base = Nat.ofDigits base ds := by
  induction ds with
  | nil => simp [value_nil]
  | cons x ds ih => rw [value_cons, ih, Nat.ofDigits_cons]

theorem value_append (l m : List Nat) (base : Nat) :
    value (l ++ m) base = value l base + base ^ l.length * value m base := by
  simp only [value_eq_ofDigits, Nat.ofDigits_append]

theorem value_lt_pow (ds : List Nat) (base : Nat) (hb : 2 ≤ base) (h : digits_lt ds base) :
    value ds base < base ^ ds.length := by
  rw [value_eq_ofDigits]
  exact Nat.ofDigits_lt_base_pow_length hb h

theorem value_map_range (f : Nat → Nat) (n base : Nat) :
    value ((List.range n).map f) base = ∑ i ∈ Finset.range n, f i * base ^ i := by
  rw [value_eq_sum]
  simp only [List.length_map, List.length_range]
  apply Finset.sum_congr rfl
  intro i hi
  have hi2 : i < n := Finset.mem_range.mp hi
  simp [List.getD, List.getElem?_map, List.getElem?_range hi2]

theorem sum_getD_extend (ds : List Nat) (base n : Nat) (h : ds.length ≤ n) :
    ∑ i ∈ Finset.range n, ds.getD i 0 * base ^ i = value ds base := by
  rw [value_eq_sum]
  obtain ⟨k, rfl⟩ := Nat.exists_eq_add_of_le h
  rw [Finset.sum_range_add]
  have : ∑ x ∈ Finset.range k, ds.getD (ds.length + x) 0 * base ^ (ds.length + x) = 0 := by
    apply Finset.sum_eq_zero
    intro x _
    rw [List.getD_eq_default _ _ (by omega), Nat.zero_mul]
  rw [this, Nat.add_zero]

/-! ## Carry propagation and the convolution -/

theorem carry_invariant (a b : List Nat) (base : Nat) (d : Nat) :
    ∑ k ∈ Finset.range d, raw_digit a b base k * base ^ k + carry_in a b base d * base ^ d
      = ∑ k ∈ Finset.range d, conv a b k * base ^ k := by
  induction d with
  | zero => simp [carry_in]
  | succ d ih =>
    rw [Finset.sum_range_succ, Finset.sum_range_succ, ← ih]
    have h := Nat.div_add_mod (conv a b d + carry_in a b base d) base
    have hc : carry_in a b base (d + 1) = (conv a b d + carry_in a b base d) / base := rfl
    have hr : raw_digit a b base d = (conv a b d + carry_in a b base d) % base := rfl
    rw [hc, hr, pow_succ]
    generalize (conv a b d + carry_in a b base d) / base = q at h
    generalize (conv a b d + carry_in a b base d) % base = r at h
    have h2 : conv a b d * base ^ d + carry_in a b base d * base ^ d
        = (base * q + r) * base ^ d := by rw [h]; ring
    have h3 : (base * q + r) * base ^ d = r * base ^ d + q * (base ^ d * base) := by ring
    omega

theorem conv_sum (a b : List Nat) (base n : Nat) (h : a.length + b.length ≤ n) :
    ∑ d ∈ Finset.range n, conv a b d * base ^ d = value a base * value b base := by
  have h1 : ∑ d ∈ Finset.range n, conv a b d * base ^ d
      = ∑ d ∈ Finset.range n, ∑ i ∈ Finset.range (d + 1),
          (a.getD i 0 * base ^ i) * (b.getD (d - i) 0 * base ^ (d - i)) := by
    apply Finset.sum_congr rfl
    intro d _
    rw [conv, Finset.sum_mul]
    apply Finset.sum_congr rfl
    intro i hi
    have hi2 : i ≤ d := Nat.lt_succ_iff.mp (Finset.mem_range.mp hi)
    have hp : base ^ d = base ^ i * base ^ (d - i) := by
      rw [← pow_add]; congr 1; omega
    rw [hp]; ring
  rw [h1, Finset.sum_range_diag_flip n
    (fun i j => (a.getD i 0 * base ^ i) * (b.getD j 0 * base ^ j))]
  have h2 : ∀ i ∈ Finset.range n,
      ∑ j ∈ Finset.range (n - i), (a.getD i 0 * base ^ i) * (b.getD j 0 * base ^ j)
        = (a.getD i 0 * base ^ i) * value b base := by
    intro i _
    rw [← Finset.mul_sum]
    by_cases hi : i < a.length
    · rw [sum_getD_extend b base (n - i) (by omega)]
    · rw [List.getD_eq_default _ _ (Nat.le_of_not_lt hi)]
      simp
  rw [Finset.sum_congr rfl h2, ← Finset.sum_mul, sum_getD_extend a base n (by omega)]

theorem raw_value (a b : List Nat) (base : Nat) :
    value (raw_digits a b base) base
        + carry_in a b base (a.length + b.length + 1) * base ^ (a.length + b.length + 1)
      = value a base * value b base := by
  rw [raw_digits, value_map_range, carry_invariant, conv_sum a b base _ (by omega)]

theorem raw_digits_length (a b : List Nat) (base : Nat) :
    (raw_digits a b base).length = a.length + b.length + 1 := by
  simp [raw_digits]

theorem raw_digits_lt (a b : List Nat) (base : Nat) (hb : base ≠ 0) :
    digits_lt (raw_digits a b base) base := by
  intro x hx
  simp only [raw_digits, List.mem_map] at hx
  obtain ⟨k, _, rfl⟩ := hx
  exact Nat.mod_lt _ (Nat.pos_of_ne_zero hb)

theorem product_lt_pow (a b : List Nat) (base : Nat) (hb : 2 ≤ base)
    (ha : digits_lt a base) (hdb : digits_lt b base) :
    value a base * value b base < base ^ (a.length + b.length) := by
  have h1 := value_lt_pow a base hb ha
  have h2 := value_lt_pow b base hb hdb
  rw [pow_add]
  exact Nat.mul_lt_mul'' h1 h2

theorem last_carry_zero (a b : List Nat) (base : Nat) (hb : 2 ≤ base)
    (ha : digits_lt a base) (hdb : digits_lt b base) :
    carry_in a b base (a.length + b.length + 1) = 0 := by
  have h := raw_value a b base
  have hp := product_lt_pow a b base hb ha hdb
  by_contra hne
  have h1 : base ^ (a.length + b.length + 1)
      ≤ carry_in a b base (a.length + b.length + 1) * base ^ (a.length + b.length + 1) :=
    Nat.le_mul_of_pos_left _ (Nat.pos_of_ne_zero hne)
  have h2 : base ^ (a.length + b.length) ≤ base ^ (a.length + b.length + 1) :=
    Nat.pow_le_pow_right (by omega) (by omega)
  omega

theorem raw_value_eq (a b : List Nat) (base : Nat) (hb : 2 ≤ base)
    (ha : digits_lt a base) (hdb : digits_lt b base) :
    value (raw_digits a b base) base = value a base * value b base := by
  have h := raw_value a b base
  rw [last_carry_zero a b base hb ha hdb] at h
  simpa using h

/-! ## The cleanup loop -/

theorem size_dec_succ (n : Nat) : size_dec (n + 1) = n := by
  simp [size_dec]

theorem size_dec_eq_mod (i : Nat) (h : i < 2 ^ 64) :
    size_dec i = (i + 2 ^ 64 - 1) % 2 ^ 64 := by
  unfold size_dec SIZE_MAX
  split <;> omega

theorem strip_nil : strip [] = [] := by
  simp [strip]

theorem strip_concat_zero (l : List Nat) : strip (l ++ [0]) = strip l := by
  simp [strip, List.rdropWhile_concat]

theorem strip_concat_pos (l : List Nat) (x : Nat) (hx : x ≠ 0) :
    strip (l ++ [x]) = l ++ [x] := by
  simp [strip, List.rdropWhile_concat, hx]

theorem cleanup_loop_eq (l : List Nat) : ∀ fuel, l.length < fuel →
    cleanup_loop fuel l (size_dec l.length)
      = if strip l = [] then .error .out_of_bounds else .ok (strip l) := by
  induction l using List.reverseRecOn with
  | nil =>
    intro fuel hf
    obtain ⟨f, rfl⟩ : ∃ f, fuel = f + 1 := ⟨fuel - 1, by simp at hf; omega⟩
    simp only [cleanup_loop, read_of_le [] _ (Nat.zero_le _), strip_nil, if_true]
    rfl
  | append_singleton l x ih =>
    intro fuel hf
    simp only [List.length_append, List.length_singleton] at hf
    obtain ⟨f, rfl⟩ : ∃ f, fuel = f + 1 := ⟨fuel - 1, by omega⟩
    have hr : read (l ++ [x]) l.length = .ok x := by
      rw [read_of_lt _ _ (by simp)]
      simp [List.getD]
    simp only [cleanup_loop, List.length_append, List.length_singleton, size_dec_succ, hr]
    show (if x = 0 then cleanup_loop f (l ++ [x]).dropLast (size_dec l.length)
      else .ok (l ++ [x])) = _
    by_cases hx : x = 0
    · subst hx
      rw [if_pos rfl, List.dropLast_concat, ih f (by omega), strip_concat_zero]
    · rw [if_neg hx, strip_concat_pos l x hx]
      simp

theorem cleanup_eq (l : List Nat) :
    cleanup l = if strip l = [] then .error .out_of_bounds else .ok (strip l) :=
  cleanup_loop_eq l (l.length + 1) (Nat.lt_succ_self _)

theorem value_strip (l : List Nat) (base : Nat) : value (strip l) base = value l base := by
  induction l using List.reverseRecOn with
  | nil => rw [strip_nil]
  | append_singleton l x ih =>
    by_cases hx : x = 0
    · subst hx
      rw [strip_concat_zero, ih, value_append]
      simp [value_cons, value_nil]
    · rw [strip_concat_pos l x hx]

theorem strip_eq_nil_iff (l : List Nat) : strip l = [] ↔ ∀ x ∈ l, x = 0 := by
  simp [strip, List.rdropWhile_eq_nil_iff]

theorem value_eq_zero_iff (l : List Nat) (base : Nat) (hb : base ≠ 0) :
    value l base = 0 ↔ ∀ x ∈ l, x = 0 := by
  induction l with
  | nil => simp [value_nil]
  | cons x l ih =>
    rw [value_cons]
    simp [hb, ih]

theorem strip_getLast_ne_zero (l : List Nat) (h : strip l ≠ []) :
    (strip l).getLast h ≠ 0 := by
  have := List.rdropWhile_last_not (fun x => x == 0) l h
  simpa using this

theorem strip_initial (l : List Nat) : strip l <+: l :=
  List.rdropWhile_prefix (fun x => x == 0) l

theorem strip_digits_lt (l : List Nat) (base : Nat) (h : digits_lt l base) :
    digits_lt (strip l) base :=
  fun x hx => h x ((strip_initial l).subset hx)

/-! ## `multiply` as a whole -/

theorem multiply_eq (a b : List Nat) (base : Nat) (hb : base ≠ 0) :
    multiply a b base
      = if strip (raw_digits a b base) = [] then .error .out_of_bounds
        else .ok (strip (raw_digits a b base)) := by
  rw [multiply_eq_cleanup a b base hb, cleanup_eq]

theorem multiply_of_product_zero (a b : List Nat) (base : Nat) (hb : 2 ≤ base)
    (ha : digits_lt a base) (hdb : digits_lt b base)
    (hz : value a base * value b base = 0) :
    multiply a b base = .error .out_of_bounds := by
  have hb0 : base ≠ 0 := by omega
  have hv := raw_value_eq a b base hb ha hdb
  rw [hz, value_eq_zero_iff _ _ hb0, ← strip_eq_nil_iff] at hv
  rw [multiply_eq a b base hb0, if_pos hv]

theorem multiply_of_product_ne_zero (a b : List Nat) (base : Nat) (hb : 2 ≤ base)
    (ha : digits_lt a base) (hdb : digits_lt b base)
    (hne : value a base * value b base ≠ 0) :
    ∃ r, multiply a b base = .ok r ∧ r = strip (raw_digits a b base)
      ∧ value r base = value a base * value b base
      ∧ digits_lt r base ∧ ∃ h : r ≠ [], r.getLast h ≠ 0 := by
  have hb0 : base ≠ 0 := by omega
  have hv := raw_value_eq a b base hb ha hdb
  have hs : strip (raw_digits a b base) ≠ [] := by
    intro hcon
    rw [strip_eq_nil_iff, ← value_eq_zero_iff _ base hb0, hv] at hcon
    exact hne hcon
  refine ⟨strip (raw_digits a b base), ?_, rfl, ?_, ?_, hs, strip_getLast_ne_zero _ hs⟩
  · rw [multiply_eq a b base hb0, if_neg hs]
  · rw [value_strip, hv]
  · exact strip_digits_lt _ _ (raw_digits_lt a b base hb0)

/-! ## Commutativity of the loops -/

theorem conv_comm (a b : List Nat) (d : Nat) : conv a b d = conv b a d := by
  unfold conv
  rw [← Finset.sum_range_reflect]
  apply Finset.sum_congr rfl
  intro i hi
  have hi2 : i < d + 1 := Finset.mem_range.mp hi
  have h1 : d + 1 - 1 - i = d - i := by omega
  have h2 : d - (d - i) = i := by omega
  rw [h1, h2, Nat.mul_comm]

theorem carry_in_comm (a b : List Nat) (base : Nat) (d : Nat) :
    carry_in a b base d = carry_in b a base d := by
  induction d with
  | zero => rfl
  | succ d ih => simp only [carry_in, ih, conv_comm a b d]

theorem raw_digits_comm (a b : List Nat) (base : Nat) :
    raw_digits a b base = raw_digits b a base := by
  have h : raw_digit a b base = raw_digit b a base := by
    funext d
    simp only [raw_digit, tmp_at, conv_comm a b d, carry_in_comm a b base d]
  simp only [raw_digits, h, Nat.add_comm a.length b.length]

/-! ## `get_digit` and `num_of_digits` -/

theorem get_digit_eq (x i base : Nat) (hb : 2 ≤ base) :
    get_digit x i base = .ok (x / base ^ i % base) := by
  unfold get_digit
  by_cases h2 : base = 2
  · subst h2
    rw [if_pos rfl, Nat.and_one_is_mod, Nat.shiftRight_eq_div_pow]
  · have h0 : base ≠ 0 := by omega
    rw [if_neg h2, if_neg h0, my_pow]

theorem num_of_digits_loop_eq (base : Nat) (hb : 2 ≤ base) : ∀ fuel x digits, x < fuel →
    num_of_digits_loop base fuel x digits = .ok (digits + (Nat.digits base x).length) := by
  intro fuel
  induction fuel with
  | zero => intro x digits h; omega
  | succ fuel ih =>
    intro x digits h
    have hb0 : base ≠ 0 := by omega
    by_cases hx : x = 0
    · subst hx
      simp [num_of_digits_loop]
    · have hlt : x / base < x := Nat.div_lt_self (Nat.pos_of_ne_zero hx) (by omega)
      simp only [num_of_digits_loop, ne_eq, hx, not_false_eq_true, if_true, hb0, if_false]
      rw [ih (x / base) (digits + 1) (by omega),
        Nat.digits_def' (by omega) (Nat.pos_of_ne_zero hx), List.length_cons]
      congr 1
      omega

theorem num_of_digits_eq (x base : Nat) (hb : 2 ≤ base) :
    num_of_digits x base = .ok (Nat.digits base x).length := by
  rw [num_of_digits, num_of_digits_loop_eq base hb _ _ _ (Nat.lt_succ_self x), Nat.zero_add]

theorem digits_getD (base : Nat) (hb : 2 ≤ base) : ∀ i x,
    (Nat.digits base x).getD i 0 = x / base ^ i % base := by
  intro i
  induction i with
  | zero =>
    intro x
    by_cases hx : x = 0
    · subst hx; simp
    · rw [Nat.digits_def' (by omega) (Nat.pos_of_ne_zero hx)]
      simp
  | succ i ih =>
    intro x
    by_cases hx : x = 0
    · subst hx; simp
    · rw [Nat.digits_def' (by omega) (Nat.pos_of_ne_zero hx), List.getD_cons_succ, ih,
        Nat.div_div_eq_div_mul, pow_succ']

theorem decompose_loop_eq (x base : Nat) (hb : 2 ≤ base) : ∀ n i v,
    decompose_loop x base n i v
      = .ok (v ++ (List.range n).map (fun k => x / base ^ (i + k) % base)) := by
  intro n
  induction n with
  | zero => intro i v; simp [decompose_loop]
  | succ n ih =>
    intro i v
    simp only [decompose_loop, get_digit_eq x i base hb]
    show decompose_loop x base n (i + 1) (v ++ [x / base ^ i % base]) = _
    rw [ih, List.range_succ_eq_map]
    have h2 : ∀ k, i + 1 + k = i + (k + 1) := fun k => by omega
    simp only [h2, List.map_cons, List.map_map, List.append_assoc, List.singleton_append,
      Nat.add_zero, Function.comp_def, Nat.succ_eq_add_one]

theorem decompose_eq_digits (x base : Nat) (hb : 2 ≤ base) :
    decompose x base = .ok (Nat.digits base x) := by
  simp only [decompose, num_of_digits_eq x base hb]
  show decompose_loop x base (Nat.digits base x).length 0 [] = _
  rw [decompose_loop_eq x base hb]
  congr 1
  apply List.ext_getElem
  · simp
  · intro k h1 h2
    have h3 : (Nat.digits base x).getD k 0 = (Nat.digits base x)[k] := by
      simp [List.getD, List.getElem?_eq_getElem h2]
    rw [← h3, digits_getD base hb]
    simp

theorem decompose_digits_lt (x base : Nat) (hb : 2 ≤ base) :
    digits_lt (Nat.digits base x) base :=
  fun _ hd => Nat.digits_lt_base hb hd

/-! ## The properties of the program -/

/-- C1, on the code: for base 10 and the operands 0 and 7 the driver builds the empty
vector and `[7]`; the multiplication phase of `multiply` leaves `[0, 0]` with carry 0,
and the cleanup loop then reads outside the emptied vector, so no sequence of value
`0 * 7` is returned. (For a non-zero product the returned sequence has the value of the
product: `multiply_of_product_ne_zero`.) -/
theorem multiply_value_zero_operand :
    decompose 0 10 = .ok [] ∧ decompose 7 10 = .ok [7]
      ∧ raw_product [] [7] 10 = .ok (0, [0, 0])
      ∧ multiply [] [7] 10 = .error .out_of_bounds
      ∧ ¬ ∃ r, multiply [] [7] 10 = .ok r ∧ value r 10 = value [] 10 * value [7] 10 := by
  refine ⟨by decide, by decide, by decide, by decide, ?_⟩
  rintro ⟨r, hr, _⟩
  have hm : multiply [] [7] 10 = .error .out_of_bounds := by decide
  rw [hm] at hr
  cases hr

/-- C2, on the code: for base 10 and two empty operands the product is zero, and
`multiply` does not return the empty sequence: after the cleanup loop has removed the
only digit `0` it reads outside the vector. (For a non-zero product the returned
sequence is non-empty with a non-zero last digit: `multiply_of_product_ne_zero`.) -/
theorem multiply_canonical_zero_product :
    value [] 10 * value [] 10 = 0
      ∧ raw_product [] [] 10 = .ok (0, [0])
      ∧ multiply [] [] 10 = .error .out_of_bounds
      ∧ multiply [] [] 10 ≠ .ok [] := by
  refine ⟨by decide, by decide, by decide, by decide⟩

/-- C3, on the code: for base 10, `a = 0` and `b = 999` the driver builds the empty
vector and `[9, 9, 9]`; every raw digit of `multiply` is zero, the cleanup loop removes
all four, and then reads outside the vector instead of returning the empty sequence. -/
theorem multiply_zero_absorption_fault :
    decompose 0 10 = .ok [] ∧ decompose 999 10 = .ok [9, 9, 9]
      ∧ raw_product [] [9, 9, 9] 10 = .ok (0, [0, 0, 0, 0])
      ∧ multiply [] [9, 9, 9] 10 = .error .out_of_bounds
      ∧ multiply [9, 9, 9] [] 10 = .error .out_of_bounds := by
  refine ⟨by decide, by decide, by decide, by decide, by decide⟩

/-- C4: `multiply a b base` and `multiply b a base` have the same outcome for all
vectors and every base: the same sequence whenever one is returned, and the same fault
otherwise. -/
theorem multiply_comm (a b : List Nat) (base : Nat) :
    multiply a b base = multiply b a base := by
  by_cases hb : base = 0
  · subst hb
    rw [multiply_base_zero, multiply_base_zero]
  · rw [multiply_eq_cleanup a b base hb, multiply_eq_cleanup b a base hb, raw_digits_comm]

/-- C5: for `base ≥ 2` the driver's decomposition of `x` returns a vector `ds` of
`num_of_digits x base` digits, digit `i` being `get_digit x i base`, and the sum of
`ds[i] * base ^ i` is `x`. -/
theorem decompose_roundtrip (x base : Nat) (hb : 2 ≤ base) :
    ∃ n ds, num_of_digits x base = .ok n ∧ decompose x base = .ok ds ∧ ds.length = n
      ∧ (∀ i, i < n → get_digit x i base = .ok (ds.getD i 0))
      ∧ value ds base = x := by
  refine ⟨_, _, num_of_digits_eq x base hb, decompose_eq_digits x base hb, rfl, ?_, ?_⟩
  · intro i _
    rw [get_digit_eq x i base hb, digits_getD base hb]
  · rw [value_eq_ofDigits, Nat.ofDigits_digits]

theorem decompose_roundtrip_witness :
    2 ≤ 16 ∧ ∃ n ds, num_of_digits 4080 16 = .ok n ∧ decompose 4080 16 = .ok ds
      ∧ ds.length = n ∧ (∀ i, i < n → get_digit 4080 i 16 = .ok (ds.getD i 0))
      ∧ value ds 16 = 4080 :=
  ⟨by decide, decompose_roundtrip 4080 16 (by decide)⟩

/-- C6: for `base ≥ 2`, `get_digit x i base` returns `(x / base ^ i) mod base`; for
base 2 the returned value is `(x >> i) & 1`, it is the bit `i` of `x`, and it agrees
with the general formula `(x / 2 ^ i) mod 2`. -/
theorem get_digit_spec (x i base : Nat) (hb : 2 ≤ base) :
    get_digit x i base = .ok (digit_at_spec x i base)
      ∧ get_digit x i 2 = .ok ((x >>> i) &&& 1)
      ∧ (x >>> i) &&& 1 = (x.testBit i).toNat
      ∧ (x >>> i) &&& 1 = digit_at_spec x i 2 := by
  refine ⟨get_digit_eq x i base hb, by simp [get_digit], ?_, ?_⟩
  · rw [Nat.toNat_testBit, Nat.and_one_is_mod, Nat.shiftRight_eq_div_pow]
  · rw [digit_at_spec, Nat.and_one_is_mod, Nat.shiftRight_eq_div_pow]

theorem get_digit_spec_witness :
    2 ≤ 10 ∧ get_digit 123 1 10 = .ok (digit_at_spec 123 1 10)
      ∧ get_digit 123 1 2 = .ok ((123 >>> 1) &&& 1)
      ∧ (123 >>> 1) &&& 1 = (Nat.testBit 123 1).toNat
      ∧ (123 >>> 1) &&& 1 = digit_at_spec 123 1 2 :=
  ⟨by decide, get_digit_spec 123 1 10 (by decide)⟩

/-- C7: for `base ≥ 2`, `num_of_digits x base` returns a count `n` (the loop ends within
any budget above `x`), `n = 0` when `x = 0`, and for `x > 0` it is the one `n ≥ 1` with
`base ^ (n - 1) ≤ x < base ^ n`. -/
theorem num_of_digits_spec (x base : Nat) (hb : 2 ≤ base) :
    ∃ n, num_of_digits x base = .ok n
      ∧ (∀ fuel, x < fuel → num_of_digits_loop base fuel x 0 = .ok n)
      ∧ (x = 0 → n = 0)
      ∧ (0 < x → 1 ≤ n ∧ base ^ (n - 1) ≤ x ∧ x < base ^ n
          ∧ ∀ m, 1 ≤ m → base ^ (m - 1) ≤ x → x < base ^ m → m = n) := by
  refine ⟨(Nat.digits base x).length, num_of_digits_eq x base hb, ?_, ?_, ?_⟩
  · intro fuel hf
    rw [num_of_digits_loop_eq base hb fuel x 0 hf, Nat.zero_add]
  · intro hx
    subst hx
    simp
  · intro hx
    have hx0 : x ≠ 0 := by omega
    have hlen : 1 ≤ (Nat.digits base x).length := by
      rw [Nat.digits_def' (by omega) hx]
      simp
    have hup : x < base ^ (Nat.digits base x).length := Nat.lt_base_pow_length_digits (by omega)
    have hlow : base ^ ((Nat.digits base x).length - 1) ≤ x := by
      have h := Nat.base_pow_length_digits_le base x (by omega) hx0
      obtain ⟨k, hk⟩ : ∃ k, (Nat.digits base x).length = k + 1 := ⟨_, (Nat.sub_add_cancel hlen).symm⟩
      rw [hk, pow_succ, Nat.mul_comm] at h
      rw [hk, Nat.add_sub_cancel]
      exact Nat.le_of_mul_le_mul_left h (by omega)
    refine ⟨hlen, hlow, hup, ?_⟩
    intro m hm hml hmu
    by_contra hne
    rcases Nat.lt_or_gt_of_ne hne with hlt | hgt
    · have : base ^ m ≤ base ^ ((Nat.digits base x).length - 1) :=
        Nat.pow_le_pow_right (by omega) (by omega)
      omega
    · have : base ^ (Nat.digits base x).length ≤ base ^ (m - 1) :=
        Nat.pow_le_pow_right (by omega) (by omega)
      omega

theorem num_of_digits_spec_witness :
    2 ≤ 10 ∧ ∃ n, num_of_digits 123 10 = .ok n
      ∧ (∀ fuel, 123 < fuel → num_of_digits_loop 10 fuel 123 0 = .ok n)
      ∧ (123 = 0 → n = 0)
      ∧ (0 < 123 → 1 ≤ n ∧ 10 ^ (n - 1) ≤ 123 ∧ 123 < 10 ^ n
          ∧ ∀ m, 1 ≤ m → 10 ^ (m - 1) ≤ 123 → 123 < 10 ^ m → m = n) :=
  ⟨by decide, num_of_digits_spec 123 10 (by decide)⟩

/-- C8, on the code: for base 10 and the well-formed operands `[2]` and the empty
vector, the multiplication phase ends without a fault and leaves `[0, 0]`; the cleanup
loop reads `result[1]` and `result[0]`, both zero and both removed, its index wraps from
0 to `SIZE_MAX`, and the next read `result[SIZE_MAX]` is outside the empty vector. -/
theorem multiply_cleanup_read_out_of_bounds :
    digits_lt [2] 10 ∧ digits_lt [] 10
      ∧ raw_product [2] [] 10 = .ok (0, [0, 0])
      ∧ size_dec 2 = 1 ∧ read [0, 0] 1 = .ok 0
      ∧ size_dec 1 = 0 ∧ read [0] 0 = .ok 0
      ∧ size_dec 0 = SIZE_MAX ∧ read [] SIZE_MAX = .error .out_of_bounds
      ∧ multiply [2] [] 10 = .error .out_of_bounds := by
  refine ⟨by decide, by decide, by decide, by decide, by decide, by decide, by decide,
    by decide, by decide, by decide⟩

/-- C9: for `base ≥ 2` and any two vectors, the multiplication phase of `multiply` ends
without a fault and every digit it has pushed is below `base`; `multiply` then either
returns that vector without its most-significant zeros or stops at the out-of-bounds
read of the cleanup loop, and every digit of a sequence it returns is below `base`. -/
theorem multiply_digits_lt_base (a b : List Nat) (base : Nat) (hb : 2 ≤ base) :
    (∃ carry raw, raw_product a b base = .ok (carry, raw) ∧ digits_lt raw base
        ∧ (multiply a b base = .ok (strip raw)
            ∨ multiply a b base = .error .out_of_bounds))
      ∧ ∀ r, multiply a b base = .ok r → digits_lt r base := by
  have hb0 : base ≠ 0 := by omega
  have hm := multiply_eq a b base hb0
  have hlt := raw_digits_lt a b base hb0
  constructor
  · refine ⟨_, _, raw_product_eq a b base hb0, hlt, ?_⟩
    by_cases hs : strip (raw_digits a b base) = []
    · right
      rw [hm, if_pos hs]
    · left
      rw [hm, if_neg hs]
  · intro r hr
    by_cases hs : strip (raw_digits a b base) = []
    · rw [hm, if_pos hs] at hr
      cases hr
    · rw [hm, if_neg hs] at hr
      cases hr
      exact strip_digits_lt _ _ hlt

theorem multiply_digits_lt_base_witness :
    2 ≤ 10 ∧ (∃ carry raw, raw_product [3, 2, 1] [6, 5, 4] 10 = .ok (carry, raw)
        ∧ digits_lt raw 10
        ∧ (multiply [3, 2, 1] [6, 5, 4] 10 = .ok (strip raw)
            ∨ multiply [3, 2, 1] [6, 5, 4] 10 = .error .out_of_bounds))
      ∧ ∀ r, multiply [3, 2, 1] [6, 5, 4] 10 = .ok r → digits_lt r 10 :=
  ⟨by decide, multiply_digits_lt_base [3, 2, 1] [6, 5, 4] 10 (by decide)⟩

/-- C10: for `base ≥ 2` the driver's decomposition of `x` returns a vector whose digits
are all below `base`, which is empty when `x = 0` and whose last digit is non-zero
otherwise. -/
theorem decompose_invariant (x base : Nat) (hb : 2 ≤ base) :
    ∃ ds, decompose x base = .ok ds ∧ digits_lt ds base
      ∧ (x = 0 → ds = [])
      ∧ (x ≠ 0 → ∃ h : ds ≠ [], ds.getLast h ≠ 0) := by
  refine ⟨Nat.digits base x, decompose_eq_digits x base hb, decompose_digits_lt x base hb,
    ?_, ?_⟩
  · intro hx
    subst hx
    simp
  · intro hx
    exact ⟨Nat.digits_ne_nil_iff_ne_zero.mpr hx, Nat.getLast_digit_ne_zero base hx⟩

theorem decompose_invariant_witness :
    2 ≤ 10 ∧ ∃ ds, decompose 123 10 = .ok ds ∧ digits_lt ds 10
      ∧ (123 = 0 → ds = [])
      ∧ (123 ≠ 0 → ∃ h : ds ≠ [], ds.getLast h ≠ 0) :=
  ⟨by decide, decompose_invariant 123 10 (by decide)⟩

/-! ## The end of the cleanup loop and the specified decomposition -/

theorem cleanup_loop_index_eq (l : List Nat) : ∀ fuel, l.length < fuel →
    cleanup_loop_index fuel l (size_dec l.length) = .ok (size_dec (strip l).length) := by
  induction l using List.reverseRecOn with
  | nil =>
    intro fuel hf
    obtain ⟨f, rfl⟩ : ∃ f, fuel = f + 1 := ⟨fuel - 1, by simp at hf; omega⟩
    simp only [cleanup_loop_index, read_of_le [] _ (Nat.zero_le _), strip_nil]
  | append_singleton l x ih =>
    intro fuel hf
    simp only [List.length_append, List.length_singleton] at hf
    obtain ⟨f, rfl⟩ : ∃ f, fuel = f + 1 := ⟨fuel - 1, by omega⟩
    have hr : read (l ++ [x]) l.length = .ok x := by
      rw [read_of_lt _ _ (by simp)]
      simp [List.getD]
    simp only [cleanup_loop_index, List.length_append, List.length_singleton, size_dec_succ, hr]
    by_cases hx : x = 0
    · subst hx
      rw [if_pos rfl, List.dropLast_concat, ih f (by omega), strip_concat_zero]
    · rw [if_neg hx, strip_concat_pos l x hx]
      simp [size_dec_succ]

theorem cleanup_index_eq (l : List Nat) :
    cleanup_index l = .ok (size_dec (strip l).length) :=
  cleanup_loop_index_eq l (l.length + 1) (Nat.lt_succ_self _)

theorem decompose_spec_loop_eq (base : Nat) (hb : 2 ≤ base) : ∀ fuel x, x ≤ fuel →
    decompose_spec_loop base fuel x = Nat.digits base x := by
  intro fuel
  induction fuel with
  | zero =>
    intro x hx
    have : x = 0 := by omega
    subst this
    simp [decompose_spec_loop]
  | succ fuel ih =>
    intro x hx
    by_cases h0 : x = 0
    · subst h0
      simp [decompose_spec_loop]
    · have hlt : x / base < x := Nat.div_lt_self (Nat.pos_of_ne_zero h0) (by omega)
      rw [decompose_spec_loop, if_neg h0, ih (x / base) (by omega),
        Nat.digits_def' (by omega) (Nat.pos_of_ne_zero h0)]

/-- C11: on the two concrete scenarios of the specification the driver (decompose both
operands, multiply) returns exactly the listed digits, least significant first:
base 10, 123 * 456 gives 8, 8, 0, 6, 5 and base 2, 5 * 3 gives 1, 1, 1, 1. -/
theorem driver_scenarios :
    driver 10 123 456 = .ok [8, 8, 0, 6, 5] ∧ driver 2 5 3 = .ok [1, 1, 1, 1] := by
  constructor <;> decide

/-- C12: for `base ≥ 2` and operands with digits below `base`, the multiplication phase
leaves a vector `raw`, and the cleanup loop ends with its index wrapped to `SIZE_MAX`
and a read outside the vector exactly when every digit of `raw` is zero, which is
exactly when `value a * value b = 0`, in particular when an operand is empty; otherwise
the loop ends at an index inside the vector and the stripped vector is returned. -/
theorem cleanup_hazard (a b : List Nat) (base : Nat) (hb : 2 ≤ base)
    (ha : digits_lt a base) (hdb : digits_lt b base) :
    ∃ carry raw, raw_product a b base = .ok (carry, raw)
      ∧ ((cleanup raw = .error .out_of_bounds ∧ cleanup_index raw = .ok SIZE_MAX)
          ↔ ∀ x ∈ raw, x = 0)
      ∧ ((∀ x ∈ raw, x = 0) ↔ value a base * value b base = 0)
      ∧ (multiply a b base = .error .out_of_bounds ↔ value a base * value b base = 0)
      ∧ (a = [] ∨ b = [] → multiply a b base = .error .out_of_bounds)
      ∧ (value a base * value b base ≠ 0 →
          ∃ i, cleanup_index raw = .ok i ∧ i < raw.length
            ∧ multiply a b base = .ok (strip raw)) := by
  have hb0 : base ≠ 0 := by omega
  have hv := raw_value_eq a b base hb ha hdb
  have hz : (∀ x ∈ raw_digits a b base, x = 0) ↔ value a base * value b base = 0 := by
    rw [← hv, value_eq_zero_iff _ _ hb0]
  have hm := multiply_eq a b base hb0
  refine ⟨_, raw_digits a b base, raw_product_eq a b base hb0, ?_, hz, ?_, ?_, ?_⟩
  · rw [cleanup_eq, cleanup_index_eq, ← strip_eq_nil_iff]
    constructor
    · rintro ⟨h1, _⟩
      by_contra hs
      rw [if_neg hs] at h1
      cases h1
    · intro hs
      rw [if_pos hs, hs]
      exact ⟨rfl, rfl⟩
  · rw [← hz, ← strip_eq_nil_iff, hm]
    constructor
    · intro h1
      by_contra hs
      rw [if_neg hs] at h1
      cases h1
    · intro hs
      rw [if_pos hs]
  · intro hab
    apply multiply_of_product_zero a b base hb ha hdb
    rcases hab with h | h
    · rw [h, value_nil, Nat.zero_mul]
    · rw [h, value_nil, Nat.mul_zero]
  · intro hne
    have hs : strip (raw_digits a b base) ≠ [] := by
      intro hcon
      rw [strip_eq_nil_iff, hz] at hcon
      exact hne hcon
    refine ⟨_, cleanup_index_eq _, ?_, ?_⟩
    · have hle := (strip_initial (raw_digits a b base)).length_le
      have hpos : 0 < (strip (raw_digits a b base)).length := List.length_pos.mpr hs
      unfold size_dec
      rw [if_neg (by omega)]
      omega
    · rw [hm, if_neg hs]

theorem cleanup_hazard_witness :
    2 ≤ 10 ∧ digits_lt [] 10 ∧ digits_lt [9, 9, 9] 10
      ∧ ∃ carry raw, raw_product [] [9, 9, 9] 10 = .ok (carry, raw)
      ∧ ((cleanup raw = .error .out_of_bounds ∧ cleanup_index raw = .ok SIZE_MAX)
          ↔ ∀ x ∈ raw, x = 0)
      ∧ ((∀ x ∈ raw, x = 0) ↔ value [] 10 * value [9, 9, 9] 10 = 0)
      ∧ (multiply [] [9, 9, 9] 10 = .error .out_of_bounds
          ↔ value [] 10 * value [9, 9, 9] 10 = 0)
      ∧ (([] : List Nat) = [] ∨ [9, 9, 9] = [] → multiply [] [9, 9, 9] 10 = .error .out_of_bounds)
      ∧ (value [] 10 * value [9, 9, 9] 10 ≠ 0 →
          ∃ i, cleanup_index raw = .ok i ∧ i < raw.length
            ∧ multiply [] [9, 9, 9] 10 = .ok (strip raw)) :=
  ⟨by decide, by decide, by decide,
    cleanup_hazard [] [9, 9, 9] 10 (by decide) (by decide) (by decide)⟩

/-- C13: for `base ≥ 2` the vector the driver builds position by position from
`get_digit` and `num_of_digits` is, digit for digit, the sequence of the specified
algorithm (divide by the base, emit the remainder, until the quotient is zero), which
ends within any budget of at least `x` divisions. -/
theorem decompose_refines_spec (x base : Nat) (hb : 2 ≤ base) :
    decompose x base = .ok (decompose_spec x base)
      ∧ ∀ fuel, x ≤ fuel → decompose_spec_loop base fuel x = decompose_spec x base := by
  have h := decompose_spec_loop_eq base hb
  refine ⟨?_, ?_⟩
  · rw [decompose_eq_digits x base hb, decompose_spec, h x x (Nat.le_refl x)]
  · intro fuel hf
    rw [decompose_spec, h x x (Nat.le_refl x), h fuel x hf]

theorem decompose_refines_spec_witness :
    2 ≤ 16 ∧ decompose 4080 16 = .ok (decompose_spec 4080 16)
      ∧ ∀ fuel, 4080 ≤ fuel → decompose_spec_loop 16 fuel 4080 = decompose_spec 4080 16 :=
  ⟨by decide, decompose_refines_spec 4080 16 (by decide)⟩

/-! ## The length of the product -/

theorem value_singleton (x base : Nat) : value [x] base = x := by
  rw [value_cons, value_nil, Nat.mul_zero, Nat.add_zero]

theorem raw_digits_succ (a b : List Nat) (base : Nat) :
    raw_digits a b base
      = (List.range (a.length + b.length)).map (raw_digit a b base)
          ++ [raw_digit a b base (a.length + b.length)] := by
  rw [raw_digits, List.range_succ, List.map_append]
  rfl

theorem raw_top_zero (a b : List Nat) (base : Nat) (hb : 2 ≤ base)
    (ha : digits_lt a base) (hdb : digits_lt b base) :
    raw_digit a b base (a.length + b.length) = 0 := by
  have hv := raw_value_eq a b base hb ha hdb
  have hp := product_lt_pow a b base hb ha hdb
  rw [raw_digits_succ, value_append, value_singleton] at hv
  simp only [List.length_map, List.length_range] at hv
  by_contra hne
  have h1 : base ^ (a.length + b.length)
      ≤ base ^ (a.length + b.length) * raw_digit a b base (a.length + b.length) :=
    Nat.le_mul_of_pos_right _ (Nat.pos_of_ne_zero hne)
  omega

theorem raw_digits_dropLast (a b : List Nat) (base : Nat) :
    (raw_digits a b base).dropLast
      = (List.range (a.length + b.length)).map (raw_digit a b base) := by
  rw [raw_digits_succ, List.dropLast_concat]

theorem strip_raw_dropLast (a b : List Nat) (base : Nat) (hb : 2 ≤ base)
    (ha : digits_lt a base) (hdb : digits_lt b base) :
    strip (raw_digits a b base) = strip (raw_digits a b base).dropLast := by
  rw [raw_digits_dropLast]
  conv_lhs => rw [raw_digits_succ, raw_top_zero a b base hb ha hdb, strip_concat_zero]

theorem strip_raw_length_le (a b : List Nat) (base : Nat) (hb : 2 ≤ base)
    (ha : digits_lt a base) (hdb : digits_lt b base) :
    (strip (raw_digits a b base)).length ≤ a.length + b.length := by
  rw [strip_raw_dropLast a b base hb ha hdb]
  have h := (strip_initial (raw_digits a b base).dropLast).length_le
  rw [raw_digits_dropLast] at h
  rw [raw_digits_dropLast]
  simpa using h

theorem pow_le_value (l : List Nat) (base : Nat) (hn : l ≠ []) (hl : l.getLast hn ≠ 0) :
    base ^ (l.length - 1) ≤ value l base := by
  have h := List.dropLast_append_getLast hn
  have hv : value l base
      = value l.dropLast base + base ^ l.dropLast.length * value [l.getLast hn] base := by
    rw [← value_append, h]
  rw [hv, value_singleton, List.length_dropLast]
  have h1 : base ^ (l.length - 1) ≤ base ^ (l.length - 1) * l.getLast hn :=
    Nat.le_mul_of_pos_right _ (Nat.pos_of_ne_zero hl)
  omega

theorem multiply_ok_eq_strip (a b : List Nat) (base : Nat) (hb : base ≠ 0) (r : List Nat)
    (hr : multiply a b base = .ok r) :
    r = strip (raw_digits a b base) ∧ strip (raw_digits a b base) ≠ [] := by
  rw [multiply_eq a b base hb] at hr
  by_cases hs : strip (raw_digits a b base) = []
  · rw [if_pos hs] at hr
    cases hr
  · rw [if_neg hs] at hr
    cases hr
    exact ⟨rfl, hs⟩

theorem multiply_ok_or_fault (a b : List Nat) (base : Nat) (hb : base ≠ 0) :
    multiply a b base = .ok (strip (raw_digits a b base))
      ∨ multiply a b base = .error .out_of_bounds := by
  rw [multiply_eq a b base hb]
  by_cases hs : strip (raw_digits a b base) = []
  · right; rw [if_pos hs]
  · left; rw [if_neg hs]

/-- C14: for `base ≥ 2` and operands with digits below `base`, the product is below
`base ^ (len a + len b)`; the vector of the multiplication phase without its
most-significant zeros has at most `max_num_of_digits_after_multiplication a b`
digits, and so has every sequence `multiply` returns. -/
theorem multiply_length_le (a b : List Nat) (base : Nat) (hb : 2 ≤ base)
    (ha : digits_lt a base) (hdb : digits_lt b base) :
    max_num_of_digits_after_multiplication a b = a.length + b.length
      ∧ value a base * value b base < base ^ max_num_of_digits_after_multiplication a b
      ∧ (∃ carry raw, raw_product a b base = .ok (carry, raw)
          ∧ (strip raw).length ≤ max_num_of_digits_after_multiplication a b
          ∧ (multiply a b base = .ok (strip raw)
              ∨ multiply a b base = .error .out_of_bounds))
      ∧ ∀ r, multiply a b base = .ok r →
          r.length ≤ max_num_of_digits_after_multiplication a b := by
  have hb0 : base ≠ 0 := by omega
  have hlen := strip_raw_length_le a b base hb ha hdb
  refine ⟨rfl, product_lt_pow a b base hb ha hdb,
    ⟨_, _, raw_product_eq a b base hb0, hlen, multiply_ok_or_fault a b base hb0⟩, ?_⟩
  intro r hr
  rw [(multiply_ok_eq_strip a b base hb0 r hr).1]
  exact hlen

theorem multiply_length_le_witness :
    2 ≤ 10 ∧ digits_lt [9, 9] 10 ∧ digits_lt [9, 9, 9] 10
      ∧ max_num_of_digits_after_multiplication [9, 9] [9, 9, 9] = [9, 9].length + [9, 9, 9].length
      ∧ value [9, 9] 10 * value [9, 9, 9] 10
          < 10 ^ max_num_of_digits_after_multiplication [9, 9] [9, 9, 9]
      ∧ (∃ carry raw, raw_product [9, 9] [9, 9, 9] 10 = .ok (carry, raw)
          ∧ (strip raw).length ≤ max_num_of_digits_after_multiplication [9, 9] [9, 9, 9]
          ∧ (multiply [9, 9] [9, 9, 9] 10 = .ok (strip raw)
              ∨ multiply [9, 9] [9, 9, 9] 10 = .error .out_of_bounds))
      ∧ ∀ r, multiply [9, 9] [9, 9, 9] 10 = .ok r →
          r.length ≤ max_num_of_digits_after_multiplication [9, 9] [9, 9, 9] :=
  ⟨by decide, by decide, by decide,
    multiply_length_le [9, 9] [9, 9, 9] 10 (by decide) (by decide) (by decide)⟩

/-- C15: for `base ≥ 2`, `a > 0` and `b > 0` the driver decomposes both operands,
`multiply` returns a sequence, and that sequence is, digit for digit, the driver's
decomposition of the integer `a * b`. -/
theorem driver_eq_decompose_product (base a b : Nat) (hb : 2 ≤ base)
    (ha : 0 < a) (hpb : 0 < b) :
    ∃ av bv r, decompose a base = .ok av ∧ decompose b base = .ok bv
      ∧ multiply av bv base = .ok r ∧ driver base a b = .ok r
      ∧ decompose (a * b) base = .ok r := by
  have hva : value (Nat.digits base a) base = a := by
    rw [value_eq_ofDigits, Nat.ofDigits_digits]
  have hvb : value (Nat.digits base b) base = b := by
    rw [value_eq_ofDigits, Nat.ofDigits_digits]
  have hne : value (Nat.digits base a) base * value (Nat.digits base b) base ≠ 0 := by
    rw [hva, hvb]
    exact Nat.mul_ne_zero (by omega) (by omega)
  obtain ⟨r, hr, _, hv, hlt, hn, hlast⟩ :=
    multiply_of_product_ne_zero _ _ base hb (decompose_digits_lt a base hb)
      (decompose_digits_lt b base hb) hne
  rw [hva, hvb] at hv
  have hd : Nat.digits base (a * b) = r := by
    rw [← hv, value_eq_ofDigits]
    exact Nat.digits_ofDigits base (by omega) r hlt (fun h => hlast)
  refine ⟨_, _, r, decompose_eq_digits a base hb, decompose_eq_digits b base hb, hr, ?_, ?_⟩
  · simp only [driver, decompose_eq_digits a base hb, decompose_eq_digits b base hb]
    exact hr
  · rw [decompose_eq_digits (a * b) base hb, hd]

theorem driver_eq_decompose_product_witness :
    2 ≤ 16 ∧ 0 < 255 ∧ 0 < 16
      ∧ ∃ av bv r, decompose 255 16 = .ok av ∧ decompose 16 16 = .ok bv
      ∧ multiply av bv 16 = .ok r ∧ driver 16 255 16 = .ok r
      ∧ decompose (255 * 16) 16 = .ok r :=
  ⟨by decide, by decide, by decide,
    driver_eq_decompose_product 16 255 16 (by decide) (by decide) (by decide)⟩

/-- C16: for `base ≥ 2` and operands with digits below `base`, the outer loop ends
with carry 0 and with the digit 0 at its last position `len a + len b`; the vector it
leaves has the value of the product, and the first iteration of the cleanup loop removes
that last zero. -/
theorem last_iteration_zero (a b : List Nat) (base : Nat) (hb : 2 ≤ base)
    (ha : digits_lt a base) (hdb : digits_lt b base) :
    ∃ raw, raw_product a b base = .ok (0, raw)
      ∧ raw.length = a.length + b.length + 1
      ∧ raw[a.length + b.length]? = some 0
      ∧ value raw base = value a base * value b base
      ∧ cleanup raw = cleanup raw.dropLast
      ∧ multiply a b base = cleanup raw.dropLast := by
  have hb0 : base ≠ 0 := by omega
  have hs := strip_raw_dropLast a b base hb ha hdb
  have hc : cleanup (raw_digits a b base) = cleanup (raw_digits a b base).dropLast := by
    rw [cleanup_eq, cleanup_eq, hs]
  refine ⟨raw_digits a b base, ?_, raw_digits_length a b base, ?_,
    raw_value_eq a b base hb ha hdb, hc, ?_⟩
  · rw [raw_product_eq a b base hb0, last_carry_zero a b base hb ha hdb]
  · rw [raw_digits_succ, raw_top_zero a b base hb ha hdb]
    simp
  · rw [multiply_eq_cleanup a b base hb0, hc]

theorem last_iteration_zero_witness :
    2 ≤ 10 ∧ digits_lt [9, 9] 10 ∧ digits_lt [9, 9, 9] 10
      ∧ ∃ raw, raw_product [9, 9] [9, 9, 9] 10 = .ok (0, raw)
      ∧ raw.length = [9, 9].length + [9, 9, 9].length + 1
      ∧ raw[[9, 9].length + [9, 9, 9].length]? = some 0
      ∧ value raw 10 = value [9, 9] 10 * value [9, 9, 9] 10
      ∧ cleanup raw = cleanup raw.dropLast
      ∧ multiply [9, 9] [9, 9, 9] 10 = cleanup raw.dropLast :=
  ⟨by decide, by decide, by decide,
    last_iteration_zero [9, 9] [9, 9, 9] 10 (by decide) (by decide) (by decide)⟩

/-- C17: for `base ≥ 2` and non-empty operands with digits below `base` and a non-zero
most-significant digit, `multiply` returns a sequence of `len a + len b - 1` or
`len a + len b` digits. -/
theorem multiply_length_ge (a b : List Nat) (base : Nat) (hb : 2 ≤ base)
    (ha : digits_lt a base) (hdb : digits_lt b base)
    (hna : a ≠ []) (hnb : b ≠ [])
    (hla : a.getLast hna ≠ 0) (hlb : b.getLast hnb ≠ 0) :
    ∃ r, multiply a b base = .ok r
      ∧ a.length + b.length - 1 ≤ r.length ∧ r.length ≤ a.length + b.length
      ∧ (r.length = a.length + b.length - 1 ∨ r.length = a.length + b.length) := by
  have hpa := pow_le_value a base hna hla
  have hpb := pow_le_value b base hnb hlb
  have hla1 : 1 ≤ a.length := List.length_pos.mpr hna
  have hlb1 : 1 ≤ b.length := List.length_pos.mpr hnb
  have hprod : base ^ (a.length + b.length - 2) ≤ value a base * value b base := by
    have he : a.length + b.length - 2 = (a.length - 1) + (b.length - 1) := by omega
    rw [he, pow_add]
    exact Nat.mul_le_mul hpa hpb
  have hpos : 0 < base ^ (a.length + b.length - 2) := Nat.pow_pos (by omega)
  obtain ⟨r, hr, hrs, hv, hlt, _, _⟩ :=
    multiply_of_product_ne_zero a b base hb ha hdb (by omega)
  have hup : r.length ≤ a.length + b.length := by
    rw [hrs]
    exact strip_raw_length_le a b base hb ha hdb
  have hlow : a.length + b.length - 1 ≤ r.length := by
    by_contra hcon
    have h1 : base ^ r.length ≤ base ^ (a.length + b.length - 2) :=
      Nat.pow_le_pow_right (by omega) (by omega)
    have h2 := value_lt_pow r base hb hlt
    omega
  exact ⟨r, hr, hlow, hup, by omega⟩

theorem multiply_length_ge_witness :
    2 ≤ 10 ∧ digits_lt [3, 2, 1] 10 ∧ digits_lt [6, 5, 4] 10
      ∧ ∃ r, multiply [3, 2, 1] [6, 5, 4] 10 = .ok r
      ∧ [3, 2, 1].length + [6, 5, 4].length - 1 ≤ r.length
      ∧ r.length ≤ [3, 2, 1].length + [6, 5, 4].length
      ∧ (r.length = [3, 2, 1].length + [6, 5, 4].length - 1
          ∨ r.length = [3, 2, 1].length + [6, 5, 4].length) :=
  ⟨by decide, by decide, by decide,
    multiply_length_ge [3, 2, 1] [6, 5, 4] 10 (by decide) (by decide) (by decide)
      (by decide) (by decide) (by decide) (by decide)⟩

/-! ## Bounds on the carry -/

theorem getD_le_of_digits_lt (l : List Nat) (base : Nat) (h : digits_lt l base) (i : Nat) :
    l.getD i 0 ≤ base - 1 := by
  by_cases hi : i < l.length
  · have hm : l.getD i 0 ∈ l := by
      rw [List.getD_eq_getElem _ _ hi]
      exact List.getElem_mem hi
    have := h _ hm
    omega
  · rw [List.getD_eq_default _ _ (Nat.le_of_not_lt hi)]
    exact Nat.zero_le _

theorem sum_le_of_support (f : Nat → Nat) (c n : Nat) (hf : ∀ i, f i ≤ c)
    (h0 : ∀ i, n ≤ i → f i = 0) : ∀ m, ∑ i ∈ Finset.range m, f i ≤ min m n * c := by
  intro m
  induction m with
  | zero => simp
  | succ m ih =>
    rw [Finset.sum_range_succ]
    by_cases hm : m < n
    · have h1 : min (m + 1) n = min m n + 1 := by omega
      have h2 := hf m
      rw [h1, Nat.add_mul, Nat.one_mul]
      omega
    · have h1 : min (m + 1) n = min m n := by omega
      rw [h1, h0 m (by omega)]
      omega

theorem conv_le_left (a b : List Nat) (base : Nat)
    (ha : digits_lt a base) (hdb : digits_lt b base) (d : Nat) :
    conv a b d ≤ a.length * ((base - 1) * (base - 1)) := by
  have h := sum_le_of_support (fun i => a.getD i 0 * b.getD (d - i) 0)
    ((base - 1) * (base - 1)) a.length
    (fun i => Nat.mul_le_mul (getD_le_of_digits_lt a base ha i)
      (getD_le_of_digits_lt b base hdb (d - i)))
    (fun i hi => by
      show a.getD i 0 * b.getD (d - i) 0 = 0
      rw [List.getD_eq_default _ _ hi, Nat.zero_mul])
    (d + 1)
  have h2 : min (d + 1) a.length * ((base - 1) * (base - 1))
      ≤ a.length * ((base - 1) * (base - 1)) :=
    Nat.mul_le_mul_right _ (Nat.min_le_right _ _)
  exact Nat.le_trans h h2

theorem conv_le (a b : List Nat) (base : Nat)
    (ha : digits_lt a base) (hdb : digits_lt b base) (d : Nat) :
    conv a b d ≤ min a.length b.length * ((base - 1) * (base - 1)) := by
  have h1 := conv_le_left a b base ha hdb d
  have h2 := conv_le_left b a base hdb ha d
  rw [← conv_comm a b d] at h2
  rcases Nat.le_total a.length b.length with h | h
  · rw [Nat.min_eq_left h]; exact h1
  · rw [Nat.min_eq_right h]; exact h2

theorem bound_split (k base : Nat) (hb : 1 ≤ base) :
    k * ((base - 1) * (base - 1)) + k * (base - 1) = k * base * (base - 1) := by
  obtain ⟨m, rfl⟩ : ∃ m, base = m + 1 := ⟨base - 1, by omega⟩
  simp only [Nat.add_sub_cancel]
  ring

theorem carry_tmp_le (a b : List Nat) (base : Nat) (hb : 2 ≤ base)
    (ha : digits_lt a base) (hdb : digits_lt b base) (d : Nat) :
    carry_in a b base d ≤ min a.length b.length * (base - 1)
      ∧ tmp_at a b base d ≤ min a.length b.length * base * (base - 1) := by
  have hstep : ∀ d, carry_in a b base d ≤ min a.length b.length * (base - 1) →
      tmp_at a b base d ≤ min a.length b.length * base * (base - 1) := by
    intro d hc
    have h1 := conv_le a b base ha hdb d
    rw [← bound_split _ base (by omega), tmp_at]
    omega
  induction d with
  | zero =>
    have hc : carry_in a b base 0 ≤ min a.length b.length * (base - 1) := Nat.zero_le _
    exact ⟨hc, hstep 0 hc⟩
  | succ d ih =>
    have hc : carry_in a b base (d + 1) ≤ min a.length b.length * (base - 1) := by
      show tmp_at a b base d / base ≤ _
      apply Nat.div_le_of_le_mul
      have h := ih.2
      have he : base * (min a.length b.length * (base - 1))
          = min a.length b.length * base * (base - 1) := by ring
      rw [he]
      exact h
    exact ⟨hc, hstep (d + 1) hc⟩

theorem outer_loop_first (a b : List Nat) (base : Nat) (hb : base ≠ 0) (d : Nat) :
    outer_loop a b base d 0 0 []
      = .ok (carry_in a b base d, (List.range d).map (raw_digit a b base)) := by
  have h := outer_loop_eq a b base hb d 0 []
  simp only [carry_in, Nat.zero_add, List.nil_append] at h
  exact h

/-! ## The fixed-width loops under the bound -/

theorem inner_loop64_eq (a b : List Nat) (d : Nat) : ∀ n i tmp w,
    tmp + ∑ k ∈ Finset.range n, a.getD (i + k) 0 * b.getD (d - (i + k)) 0 < 2 ^ 64 →
    inner_loop64 a b d n i tmp w
      = .ok (tmp + ∑ k ∈ Finset.range n, a.getD (i + k) 0 * b.getD (d - (i + k)) 0, w) := by
  intro n
  induction n with
  | zero => intro i tmp w _; simp [inner_loop64]
  | succ n ih =>
    intro i tmp w hlt
    have hshift : ∀ k, i + 1 + k = i + (k + 1) := fun k => by omega
    have hsum : ∑ k ∈ Finset.range (n + 1), a.getD (i + k) 0 * b.getD (d - (i + k)) 0
        = a.getD i 0 * b.getD (d - i) 0
          + ∑ k ∈ Finset.range n, a.getD (i + 1 + k) 0 * b.getD (d - (i + 1 + k)) 0 := by
      rw [Finset.sum_range_succ', Nat.add_comm]
      simp only [hshift, Nat.add_zero]
    rw [hsum] at hlt ⊢
    by_cases hg : i < a.length ∧ d - i < b.length
    · have hc : (!(decide (i ≥ a.length) || decide (d - i ≥ b.length))) = true := by
        simp [hg.1, hg.2]
      have hp : a.getD i 0 * b.getD (d - i) 0 % 2 ^ 64 = a.getD i 0 * b.getD (d - i) 0 :=
        Nat.mod_eq_of_lt (by omega)
      have hs : (tmp + a.getD i 0 * b.getD (d - i) 0) % 2 ^ 64
          = tmp + a.getD i 0 * b.getD (d - i) 0 := Nat.mod_eq_of_lt (by omega)
      have hw1 : decide (2 ^ 64 ≤ a.getD i 0 * b.getD (d - i) 0) = false :=
        decide_eq_false (by omega)
      have hw2 : decide (2 ^ 64 ≤ tmp + a.getD i 0 * b.getD (d - i) 0) = false :=
        decide_eq_false (by omega)
      simp only [inner_loop64, hc, if_true, read_of_lt a i hg.1, read_of_lt b (d - i) hg.2]
      show inner_loop64 a b d n (i + 1)
        ((tmp + a.getD i 0 * b.getD (d - i) 0 % 2 ^ 64) % 2 ^ 64)
        (w || decide (2 ^ 64 ≤ a.getD i 0 * b.getD (d - i) 0)
          || decide (2 ^ 64 ≤ tmp + a.getD i 0 * b.getD (d - i) 0 % 2 ^ 64)) = _
      rw [hp, hs, hw1, hw2, Bool.or_false, Bool.or_false, ih (i + 1) _ w (by omega),
        Nat.add_assoc]
    · have hc : (!(decide (i ≥ a.length) || decide (d - i ≥ b.length))) = false := by
        by_cases h1 : i < a.length
        · have h2 : b.length ≤ d - i := by
            by_contra h2
            exact hg ⟨h1, by omega⟩
          simp [h2]
        · simp [Nat.le_of_not_lt h1]
      have hz : a.getD i 0 * b.getD (d - i) 0 = 0 := by
        by_cases h1 : i < a.length
        · have h2 : b.length ≤ d - i := by
            by_contra hcon
            exact hg ⟨h1, by omega⟩
          rw [List.getD_eq_default _ _ h2, Nat.mul_zero]
        · rw [List.getD_eq_default _ _ (Nat.le_of_not_lt h1), Nat.zero_mul]
      rw [hz, Nat.zero_add] at hlt ⊢
      simp only [inner_loop64, hc, Bool.false_eq_true, if_false]
      exact ih (i + 1) tmp w hlt

theorem inner_loop64_conv (a b : List Nat) (d : Nat) (w : Bool) (h : conv a b d < 2 ^ 64) :
    inner_loop64 a b d (d + 1) 0 0 w = .ok (conv a b d, w) := by
  have h1 := inner_loop64_eq a b d (d + 1) 0 0 w
  simp only [Nat.zero_add] at h1
  exact h1 h

theorem outer_loop64_eq (a b : List Nat) (base : Nat) (hb : base ≠ 0)
    (hbound : ∀ d, tmp_at a b base d < 2 ^ 64) : ∀ n d result w,
    outer_loop64 a b base n d (carry_in a b base d) result w
      = .ok (carry_in a b base (d + n),
          result ++ (List.range n).map (fun k => raw_digit a b base (d + k)), w) := by
  intro n
  induction n with
  | zero => intro d result w; simp [outer_loop64]
  | succ n ih =>
    intro d result w
    have ht := hbound d
    have hconv : conv a b d < 2 ^ 64 := by
      have : conv a b d ≤ tmp_at a b base d := Nat.le_add_right _ _
      omega
    have hmod : (conv a b d + carry_in a b base d) % 2 ^ 64
        = conv a b d + carry_in a b base d := Nat.mod_eq_of_lt ht
    have hw : decide (2 ^ 64 ≤ conv a b d + carry_in a b base d) = false :=
      decide_eq_false (Nat.not_le.mpr ht)
    simp only [outer_loop64, inner_loop64_conv a b d w hconv, hb, if_false]
    show outer_loop64 a b base n (d + 1)
      ((conv a b d + carry_in a b base d) % 2 ^ 64 / base)
      (result ++ [(conv a b d + carry_in a b base d) % 2 ^ 64 % base])
      (w || decide (2 ^ 64 ≤ conv a b d + carry_in a b base d)) = _
    have hc : (conv a b d + carry_in a b base d) / base = carry_in a b base (d + 1) := rfl
    rw [hmod, hw, Bool.or_false, hc, ih (d + 1), List.range_succ_eq_map]
    have h1 : d + 1 + n = d + (n + 1) := by omega
    have h2 : ∀ k, d + 1 + k = d + (k + 1) := fun k => by omega
    simp only [h1, h2, List.map_cons, List.map_map, List.append_assoc, List.singleton_append,
      Nat.add_zero, raw_digit, tmp_at, Function.comp_def, Nat.succ_eq_add_one]

theorem raw_product64_eq (a b : List Nat) (base : Nat) (hb : base ≠ 0)
    (hbound : ∀ d, tmp_at a b base d < 2 ^ 64) :
    raw_product64 a b base
      = .ok (carry_in a b base (a.length + b.length + 1), raw_digits a b base, false) := by
  have h := outer_loop64_eq a b base hb hbound (a.length + b.length + 1) 0 [] false
  simp only [carry_in, Nat.zero_add, List.nil_append] at h
  simpa [raw_product64, max_num_of_digits_after_multiplication, raw_digits] using h

/-- C18: for `base ≥ 2` and operands with digits below `base`, with
`k = min (len a) (len b)`: at every position `d` the carry that enters the position is
at most `k * (base - 1)` and `tmp` with the carry added is at most
`k * base * (base - 1)`; and when `k * base * (base - 1) < 2 ^ 64` the loops on 64-bit
unsigned numbers compute the same carry and vector as on unbounded numbers, without any
product or sum wrapping. -/
theorem carry_bound (a b : List Nat) (base : Nat) (hb : 2 ≤ base)
    (ha : digits_lt a base) (hdb : digits_lt b base) :
    (∀ d, ∃ carry result c, outer_loop a b base d 0 0 [] = .ok (carry, result)
        ∧ inner_loop a b d (d + 1) 0 0 = .ok c
        ∧ carry ≤ min a.length b.length * (base - 1)
        ∧ c + carry ≤ min a.length b.length * base * (base - 1))
      ∧ (min a.length b.length * base * (base - 1) < 2 ^ 64 →
          ∃ carry raw, raw_product a b base = .ok (carry, raw)
            ∧ raw_product64 a b base = .ok (carry, raw, false)) := by
  have hb0 : base ≠ 0 := by omega
  constructor
  · intro d
    have h := carry_tmp_le a b base hb ha hdb d
    exact ⟨_, _, _, outer_loop_first a b base hb0 d, inner_loop_conv a b d, h.1, h.2⟩
  · intro h64
    refine ⟨_, _, raw_product_eq a b base hb0, raw_product64_eq a b base hb0 ?_⟩
    intro d
    exact Nat.lt_of_le_of_lt (carry_tmp_le a b base hb ha hdb d).2 h64

theorem carry_bound_witness :
    2 ≤ 10 ∧ digits_lt [9, 9] 10 ∧ digits_lt [9, 9, 9] 10
      ∧ (∀ d, ∃ carry result c, outer_loop [9, 9] [9, 9, 9] 10 d 0 0 [] = .ok (carry, result)
        ∧ inner_loop [9, 9] [9, 9, 9] d (d + 1) 0 0 = .ok c
        ∧ carry ≤ min [9, 9].length [9, 9, 9].length * (10 - 1)
        ∧ c + carry ≤ min [9, 9].length [9, 9, 9].length * 10 * (10 - 1))
      ∧ (∃ carry raw, raw_product [9, 9] [9, 9, 9] 10 = .ok (carry, raw)
            ∧ raw_product64 [9, 9] [9, 9, 9] 10 = .ok (carry, raw, false)) :=
  ⟨by decide, by decide, by decide,
    (carry_bound [9, 9] [9, 9, 9] 10 (by decide) (by decide) (by decide)).1,
    (carry_bound [9, 9] [9, 9, 9] 10 (by decide) (by decide) (by decide)).2 (by decide)⟩

end MultiplicationAlgorithm
